import Mathlib

/-!
Verification of the HomeBrain appliance manager (`src/app.py`) against its
natural-language specification.  The Python source is shallowly embedded:
file contents are lists of characters, the persisted status file and the
one-time credential file are small inductive states, and every embedded
definition is translated directly from the corresponding Python function.
-/

abbrev Chars := List Char

/-- Whitespace characters removed by Python's `str.strip()`. -/
def pySpace (c : Char) : Bool :=
  c = ' ' || c = '\t' || c = '\n' || c = '\r' || c = '\x0b' || c = '\x0c'

/-- Left strip, as in Python `str.lstrip()`. -/
def pyStripL : Chars → Chars
  | [] => []
  | c :: cs => if pySpace c then pyStripL cs else c :: cs

/-- Right strip, as in Python `str.rstrip()`. -/
def pyStripR (s : Chars) : Chars := ((pyStripL s.reverse)).reverse

/-- Python `str.strip()`. -/
def pyStrip (s : Chars) : Chars := pyStripL (pyStripR s)

/-- Fuel-driven worker for `pyReplace` (structural recursion so that the
kernel can evaluate it on concrete inputs). -/
def pyReplaceGo (pat rep : Chars) : Nat → Chars → Chars
  | 0, s => s
  | _ + 1, [] => []
  | n + 1, c :: cs =>
    if pat ≠ [] ∧ pat.isPrefixOf (c :: cs) then
      rep ++ pyReplaceGo pat rep n ((c :: cs).drop pat.length)
    else
      c :: pyReplaceGo pat rep n cs

/-- Python `str.replace(pat, rep)`: leftmost, non-overlapping, all
occurrences. -/
def pyReplace (pat rep s : Chars) : Chars := pyReplaceGo pat rep s.length s

/-- Split a character list at every occurrence of `sep` (like Python
`str.split(sep)`); never returns an empty list. -/
def splitOnChar (sep : Char) : Chars → List Chars
  | [] => [[]]
  | c :: cs =>
    match splitOnChar sep cs with
    | [] => [[c]]
    | l :: ls => if c = sep then [] :: l :: ls else (c :: l) :: ls

/-- Join lines back with a newline between consecutive lines. -/
def joinLines : List Chars → Chars
  | [] => []
  | [l] => l
  | l :: ls => l ++ '\n' :: joinLines ls

/-- The lines a Python `for line in f` / `grep` / `sed` sees in a file whose
whole content is `s` (the final element is the unterminated fragment, empty
when the content ends with a newline). -/
def envLines (s : Chars) : List Chars := splitOnChar '\n' s

/-- Split at the first `=` (Python `split("=", 1)` on a string containing
`=`). -/
def splitFirstEq : Chars → Chars × Chars
  | [] => ([], [])
  | c :: cs =>
    if c = '=' then ([], cs)
    else
      let r := splitFirstEq cs
      (c :: r.1, r.2)

/-- The four-character shell escape sequence for a single quote. -/
def sqEsc : Chars := ['\'', '\\', '\'', '\'']

/-- Strip a matching surrounding quote pair and undo the shell escaping of
single quotes, exactly as the body of `get_env_config` / with
`get_factory_config` does. -/
def unquoteVal (v : Chars) : Chars :=
  match v with
  | [] => []
  | c :: cs =>
    if (c = '\'' ∨ c = '"') ∧ (c :: cs).getLast? = some c then
      let inner := cs.dropLast
      if c = '\'' then pyReplace sqEsc ['\''] inner else inner
    else v

/-- Parse one line of a `KEY=VALUE` file: embedded from the loop body of
`get_env_config` (and the textually identical `get_factory_config`). -/
def parseLine (line : Chars) : Option (Chars × Chars) :=
  if '=' ∈ line then
    let t := pyStrip line
    let kv := splitFirstEq t
    some (kv.1, unquoteVal (pyStrip kv.2))
  else none

/-- Fold the parsed lines into a dictionary lookup for one key: the last
assignment to the key wins, as with Python dict insertion. -/
def lookupAux (k : Chars) (acc : Option Chars) : List Chars → Option Chars
  | [] => acc
  | l :: ls =>
    lookupAux k
      (match parseLine l with
       | some kv => if kv.1 = k then some kv.2 else acc
       | none => acc) ls

/-- Embeds `get_env_config()[k]` (`None` when the key is absent) for a live
config file whose content is `content`. -/
def get_env_config (content k : Chars) : Option Chars := lookupAux k none (envLines content)

/-- Embeds `get_factory_config()[k]`; `none` content models a missing
factory file (the parser is the same as `get_env_config`). -/
def get_factory_config (file : Option Chars) (k : Chars) : Option Chars :=
  match file with
  | none => none
  | some content => get_env_config content k

/-- Does the line start with `key=`?  This is the pattern `^key=` used by
both the `grep -q` probe and the `sed` substitution in `update_env_var`. -/
def startsWithKey (k : Chars) (line : Chars) : Bool := (k ++ ['=']).isPrefixOf line

/-- Embeds `subprocess.call(["grep", "-q", "^key=", ENV_FILE]) == 0`. -/
def grepHasKey (content k : Chars) : Bool := (envLines content).any (startsWithKey k)

/-- GNU sed processing of the replacement text of `s|pat|repl|`: `&` stands
for the portion matched by the pattern (the whole line, since the pattern is
`^key=.*`), and a backslash makes the following character literal. -/
def sedTemplProc (matched : Chars) : Chars → Chars
  | [] => []
  | [c] => if c = '&' then matched else if c = '\\' then [] else [c]
  | c :: d :: rest =>
    if c = '&' then matched ++ sedTemplProc matched (d :: rest)
    else if c = '\\' then d :: sedTemplProc matched rest
    else c :: sedTemplProc matched (d :: rest)

/-- One line under `sed -i s|^key=.*|templ|`: a matching line is replaced
by the processed template, any other line is untouched. -/
def sedSubLine (k templ line : Chars) : Chars :=
  if startsWithKey k line then sedTemplProc line templ else line

/-- Whole-file effect of the in-place sed substitution. -/
def sedSubFile (k templ content : Chars) : Chars :=
  joinLines ((envLines content).map (sedSubLine k templ))

/-- Embeds `str(value).replace("'", "'\\''")` from `update_env_var`. -/
def bashEscape (v : Chars) : Chars := pyReplace ['\''] sqEsc v

/-- Embeds `quoted_val = f"'{safe_val_bash}'"`. -/
def quotedVal (v : Chars) : Chars := '\'' :: bashEscape v ++ ['\'']

/-- Embeds `sed_val = quoted_val.replace("|", "\\|")`. -/
def sedVal (v : Chars) : Chars := pyReplace ['|'] ['\\', '|'] (quotedVal v)

/-- Ensure the file ends with a newline before appending, as the `r+` pass
of `update_env_var` does. -/
def ensureTrailingNl (content : Chars) : Chars :=
  if content ≠ [] ∧ content.getLast? ≠ some '\n' then content ++ ['\n'] else content

/-- Embeds `update_env_var(key, value)` for a non-`None` value on an
existing env file with content `content`: if `grep -q ^key=` succeeds the
line is rewritten in place through `sed`, otherwise `key='value'` (shell
quoted) is appended on a fresh line. -/
def update_env_var (content k v : Chars) : Chars :=
  if grepHasKey content k then
    sedSubFile k (k ++ '=' :: sedVal v) content
  else
    ensureTrailingNl content ++ k ++ '=' :: quotedVal v ++ ['\n']

/-- Embeds `update_env_var(key, None)`: `sed -i /^key=/d` removes every
line starting with `key=`. -/
def update_env_var_none (content k : Chars) : Chars :=
  joinLines ((envLines content).filter (fun l => !startsWithKey k l))

/-! ## Status store and task runner -/

/-- The status record persisted as JSON in the status file (fields
`status`, `message`, `log_type`). -/
structure TaskStatus where
  status : String
  message : String
  log_type : String
deriving DecidableEq

/-- The default returned by `read_status` when the file is absent or does
not parse, and the initial value of the module-level global
`current_task_status`. -/
def defaultStatus : TaskStatus := ⟨"idle", "", "setup"⟩

/-- State of the canonical status file: missing, present but not valid
JSON, or holding a status record. -/
inductive StatusFile where
  | absent
  | malformed
  | stored (s : TaskStatus)
deriving DecidableEq

/-- Embeds `read_status()`: return the parsed file if it exists and parses,
otherwise fall back to the default record. -/
def read_status : StatusFile → TaskStatus
  | .stored s => s
  | _ => defaultStatus

/-- Combined process state: the persisted status file plus the in-process
global `current_task_status` (only written by `write_status` when the file
write fails). -/
structure ManagerState where
  statusFile : StatusFile
  current_task_status : TaskStatus
deriving DecidableEq

/-- Embeds `write_status(status)`: on a successful file write the record is
atomically renamed over the canonical file; on failure the global
`current_task_status` is assigned instead. -/
def write_status (w : ManagerState) (s : TaskStatus) (fileWriteOk : Bool) : ManagerState :=
  if fileWriteOk then { w with statusFile := .stored s }
  else { w with current_task_status := s }

/-- Embeds the module-level startup block: read the persisted status once
and, if it is `running`, rewrite it to an error with the stale-task message
(the write is modelled as succeeding). -/
def startupReconcile (f : StatusFile) : StatusFile :=
  let s := read_status f
  if s.status = "running" then
    .stored { s with status := "error", message := "Stale task from previous run detected." }
  else f

inductive SubmitOutcome where
  | accepted
  | rejected
deriving DecidableEq

/-- The admission check shared verbatim by every task-submitting route
(`trigger_backup`, `trigger_restore`, `mount_drive`, `format_drive`,
`update_tunnel`, `update_tunnel_cloudflare`, `revert_tunnel_provider`,
`trigger_upgrade`, `do_manager_update`, `update_system_config`,
`setup_ftp`, `delete_ftp`): the request is rejected with 409 when
`current_task_status["status"] == "running"`, i.e. the check reads the
in-process global, not the persisted file. -/
def taskRouteAdmission (w : ManagerState) : SubmitOutcome :=
  if w.current_task_status.status = "running" then .rejected else .accepted

/-- Modelled from the spec: the admission gate as §4.3 states it, rejecting
exactly when `StatusStore.Read().state == running`.  Stated alongside
`taskRouteAdmission` (the gate the code actually runs) for comparison. -/
def specSubmitGate (w : ManagerState) : SubmitOutcome :=
  if (read_status w.statusFile).status = "running" then .rejected else .accepted

/-- Outcome of `subprocess.run(command, shell=True, check=True)`: the
process exited with a code, or an exception was raised while launching or
waiting on it. -/
inductive ExecResult where
  | exited (code : Nat)
  | raised (msg : String)
deriving DecidableEq

/-- The `running` record `run_background_task` writes on entry. -/
def runningStatus (task_name log_type : String) : TaskStatus :=
  ⟨"running", task_name ++ " in progress...", log_type⟩

/-- The terminal record `run_background_task` writes: exit code `0` gives
success, `subprocess.CalledProcessError` (non-zero exit under `check=True`)
gives the generic failure message, and any other exception stores the
exception text. -/
def terminalStatus (task_name log_type : String) : ExecResult → TaskStatus
  | .exited 0 => ⟨"success", task_name ++ " completed successfully.", log_type⟩
  | .exited (_ + 1) => ⟨"error", task_name ++ " failed. Check logs.", log_type⟩
  | .raised m => ⟨"error", m, log_type⟩

/-- The sequence of status records `run_background_task(task_name, command,
log_type)` writes up to and including the terminal write, as a function of
the outcome of executing `command`. -/
def run_background_task_writes (task_name : String) (command : String)
    (log_type : String) (exec : String → ExecResult) : List TaskStatus :=
  [runningStatus task_name log_type, terminalStatus task_name log_type (exec command)]

/-- Grace period (seconds) slept between the terminal write and the
auto-idle re-read: `time.sleep(10)`. -/
def GRACE : Nat := 10

/-- The full timed write trace of one `run_background_task` call: the
running record at `t0`, the terminal record when the process finishes at
`t0 + d`, and — only when the status re-read after the grace sleep is not
`running` — an idle downgrade of that re-read record at `t0 + d + GRACE`. -/
def run_background_task_timed (task_name command log_type : String)
    (exec : String → ExecResult) (t0 d : Nat) (reread : TaskStatus) :
    List (Nat × TaskStatus) :=
  [(t0, runningStatus task_name log_type),
   (t0 + d, terminalStatus task_name log_type (exec command))] ++
    (if reread.status ≠ "running" then [(t0 + d + GRACE, { reread with status := "idle" })]
     else [])

/-! ## One-time credentials -/

/-- The record `start_setup` writes to `install_creds.json`. -/
structure InstallCreds where
  username : String
  password : Chars
  domain : Option Chars
  generated_at : Nat
deriving DecidableEq

/-- State of the one-time credential file. -/
inductive CredsFile where
  | absent
  | malformed
  | stored (r : InstallCreds)
deriving DecidableEq

/-- Result of `GET /api/setup/credentials`: the record with HTTP 200, or
HTTP 410 Gone. -/
inductive ClaimResult where
  | ok (r : InstallCreds)
  | gone
deriving DecidableEq

/-- Embeds `get_one_time_credentials`: if the file exists and parses the
record is returned; in every other case 410 is returned.  The file is
never modified by this endpoint. -/
def get_one_time_credentials : CredsFile → ClaimResult × CredsFile
  | .stored r => (.ok r, .stored r)
  | f => (.gone, f)

/-- Embeds `cleanup_credentials` (`POST /api/setup/cleanup_credentials`):
removes the credential file when present (and fires the tunnel-activation
task, outside this model). -/
def cleanup_credentials : CredsFile → CredsFile
  | _ => .absent

/-- Embeds the publication step of `start_setup`: the credential record is
written to `install_creds.json`. -/
def publish_credentials (r : InstallCreds) : CredsFile := .stored r

/-! ## Authentication -/

/-- Embeds `check_factory_auth(password)`: compare against
`FACTORY_PASSWORD` from the factory config, defaulting to the literal
`"homebrain"`. -/
def check_factory_auth (factory : Option Chars) (password : Chars) : Bool :=
  password = (get_factory_config factory "FACTORY_PASSWORD".toList).getD "homebrain".toList

/-- Embeds `check_auth(username, password)`: true only when the live config
has a non-empty `MANAGER_PASSWORD` and the pair is `admin` / that value. -/
def check_auth (env : Chars) (username password : Chars) : Bool :=
  match get_env_config env "MANAGER_PASSWORD".toList with
  | some p => if p ≠ [] then username = "admin".toList ∧ password = p else false
  | none => false

/-- The request data `auth_gate` inspects. -/
structure RequestCtx where
  endpointIsStatic : Bool
  path : Chars
  authorization : Option (Chars × Chars)
deriving DecidableEq

/-- The path/endpoint allow-list of `auth_gate` that bypasses
authentication entirely. -/
def whitelisted (q : RequestCtx) : Bool :=
  q.endpointIsStatic ||
  q.path = "/favicon.ico".toList ||
  ("/api/logs/".toList).isPrefixOf q.path ||
  q.path = "/api/setup/credentials".toList ||
  q.path = "/api/setup/cleanup_credentials".toList ||
  q.path = "/api/task_status".toList

inductive GateDecision where
  | allow
  | challenge (realm : String)
deriving DecidableEq

/-- Embeds `auth_gate` (the `before_request` hook): whitelisted requests
pass; before setup completion the factory password is required; afterwards
`check_auth` is required. -/
def auth_gate (setupComplete : Bool) (factory : Option Chars) (env : Chars)
    (q : RequestCtx) : GateDecision :=
  if whitelisted q then .allow
  else if !setupComplete then
    match q.authorization with
    | some a => if check_factory_auth factory a.2 then .allow
                else .challenge "Enter Factory Password (Label on Device)"
    | none => .challenge "Enter Factory Password (Label on Device)"
  else
    match q.authorization with
    | some a => if check_auth env a.1 a.2 then .allow
                else .challenge "HomeBrain Admin Login"
    | none => .challenge "HomeBrain Admin Login"

/-! ## First-time setup password bootstrap -/

/-- The alphabet `string.ascii_letters + string.digits` used by
`start_setup`. -/
def passwordAlphabet : Chars :=
  "abcdefghijklmnopqrstuvwxyzABCDEFGHIJKLMNOPQRSTUVWXYZ0123456789".toList

theorem passwordAlphabet_length : passwordAlphabet.length = 62 := rfl

/-- Embeds `''.join(secrets.choice(alphabet) for _ in range(16))`: the
random draws are abstracted as an oracle giving, for each position, the
index of the chosen alphabet character. -/
def genMasterPassword (oracle : Nat → Fin 62) : Chars :=
  (List.range 16).map fun i =>
    passwordAlphabet.get (Fin.cast passwordAlphabet_length.symm (oracle i))

/-- Embeds the truthiness test `if not master_pass` applied to
`env_config.get('MASTER_PASSWORD')`. -/
def masterFound (env : Chars) : Bool :=
  match get_env_config env "MASTER_PASSWORD".toList with
  | some p => p ≠ []
  | none => false

/-- Embeds the master-password selection of `start_setup`: reuse a stored
non-empty `MASTER_PASSWORD`, otherwise generate a fresh 16-character
alphanumeric one. -/
def start_setup_master (env : Chars) (oracle : Nat → Fin 62) : Chars :=
  match get_env_config env "MASTER_PASSWORD".toList with
  | some p => if p ≠ [] then p else genMasterPassword oracle
  | none => genMasterPassword oracle

/-- The six config keys `start_setup` fans the master password out to. -/
def servicePasswordKeys : List Chars :=
  ["MASTER_PASSWORD".toList, "MANAGER_PASSWORD".toList,
   "NEXTCLOUD_ADMIN_PASSWORD".toList, "MYSQL_ROOT_PASSWORD".toList,
   "MYSQL_PASSWORD".toList, "HA_ADMIN_PASSWORD".toList]

/-- Embeds step 4 of `start_setup`: assign the master password to every
service key via `update_env_var`. -/
def start_setup_fanout (env master : Chars) : Chars :=
  servicePasswordKeys.foldl (fun f k => update_env_var f k master) env

/-! ## Claim theorems: status store and task runner -/

/-- C7: `StatusStore.Read` (`read_status`) is total and never propagates an
error: an existing, parseable status file yields the parsed record, and a
missing or unparseable file yields the default `{idle, "", "setup"}`. -/
theorem read_status_total (s : TaskStatus) :
    read_status (.stored s) = s ∧
    read_status .absent = defaultStatus ∧
    read_status .malformed = defaultStatus ∧
    defaultStatus = ⟨"idle", "", "setup"⟩ :=
  ⟨rfl, rfl, rfl, rfl⟩

/-- C4: the startup reconciliation rewrites a persisted `running` status to
`error` with exactly the message "Stale task from previous run detected.",
keeping the log channel; any persisted status whose state is not `running`
— and a missing or unparseable file — is left untouched. -/
theorem startupReconcile_spec (s : TaskStatus) :
    (s.status = "running" →
      startupReconcile (.stored s) =
        .stored ⟨"error", "Stale task from previous run detected.", s.log_type⟩) ∧
    (s.status ≠ "running" → startupReconcile (.stored s) = .stored s) ∧
    startupReconcile .absent = .absent ∧
    startupReconcile .malformed = .malformed := by
  obtain ⟨a, b, c⟩ := s
  refine ⟨fun h => ?_, fun h => ?_, rfl, rfl⟩
  · simp only at h
    subst h
    rfl
  · simp only at h
    simp [startupReconcile, read_status, h]

/-- Witness for C4 at a concrete stale record and a concrete terminal
record. -/
theorem startupReconcile_spec_witness :
    startupReconcile (.stored ⟨"running", "X", "setup"⟩) =
      .stored ⟨"error", "Stale task from previous run detected.", "setup"⟩ ∧
    startupReconcile (.stored ⟨"success", "done", "backup"⟩) =
      .stored ⟨"success", "done", "backup"⟩ :=
  ⟨(startupReconcile_spec ⟨"running", "X", "setup"⟩).1 rfl,
   (startupReconcile_spec ⟨"success", "done", "backup"⟩).2.1 (by decide)⟩

/-- C5: a background task writes exactly the running record
`{running, "<name> in progress...", logChannel}` followed by exactly one
terminal record: success with "<name> completed successfully." on exit
code 0, error with "<name> failed. Check logs." on a non-zero exit code,
and error carrying the exception text when launching/waiting raised. -/
theorem run_background_task_lifecycle (n cmd lt : String) (exec : String → ExecResult) :
    ∃ term : TaskStatus,
      run_background_task_writes n cmd lt exec =
        [⟨"running", n ++ " in progress...", lt⟩, term] ∧
      (exec cmd = .exited 0 →
        term = ⟨"success", n ++ " completed successfully.", lt⟩) ∧
      (∀ c, exec cmd = .exited c → c ≠ 0 →
        term = ⟨"error", n ++ " failed. Check logs.", lt⟩) ∧
      (∀ m, exec cmd = .raised m → term = ⟨"error", m, lt⟩) := by
  refine ⟨terminalStatus n lt (exec cmd), rfl, fun h => by rw [h]; rfl, ?_,
          fun m h => by rw [h]; rfl⟩
  intro c h hc
  rw [h]
  cases c with
  | zero => exact absurd rfl hc
  | succ c => rfl

/-- Witness for C5: the setup task with exit code 0. -/
theorem run_background_task_lifecycle_witness :
    run_background_task_writes "Initial Setup" "c" "setup" (fun _ => .exited 0) =
      [⟨"running", "Initial Setup in progress...", "setup"⟩,
       ⟨"success", "Initial Setup completed successfully.", "setup"⟩] := by
  obtain ⟨term, h1, h2, -, -⟩ :=
    run_background_task_lifecycle "Initial Setup" "c" "setup" (fun _ => .exited 0)
  rw [h1, h2 rfl]
  rfl

/-- C6: after the terminal write the runner performs no further write until
the 10-unit grace period has elapsed; at that point it re-reads the status
and downgrades to `idle` only when the observed state is not `running`, so
a task accepted during the grace window is never clobbered. -/
theorem run_background_task_auto_idle (n cmd lt : String) (exec : String → ExecResult)
    (t0 d : Nat) (reread : TaskStatus) :
    (∀ p ∈ run_background_task_timed n cmd lt exec t0 d reread,
        t0 + d < p.1 → t0 + d + GRACE ≤ p.1) ∧
    (reread.status = "running" →
      run_background_task_timed n cmd lt exec t0 d reread =
        [(t0, runningStatus n lt), (t0 + d, terminalStatus n lt (exec cmd))]) ∧
    (reread.status ≠ "running" →
      run_background_task_timed n cmd lt exec t0 d reread =
        [(t0, runningStatus n lt), (t0 + d, terminalStatus n lt (exec cmd)),
         (t0 + d + GRACE, { reread with status := "idle" })]) := by
  refine ⟨?_, fun h => by simp [run_background_task_timed, h],
          fun h => by simp [run_background_task_timed, h]⟩
  intro p hp hlt
  by_cases h : reread.status = "running"
  · simp [run_background_task_timed, h] at hp
    rcases hp with h1 | h1 <;> subst h1 <;> omega
  · simp [run_background_task_timed, h] at hp
    rcases hp with h1 | h1 | h1 <;> subst h1 <;> omega

/-- Witness for C6: a failed backup, grace elapsed with no superseding
task, downgraded to idle; and a superseding task observed as running, not
clobbered. -/
theorem run_background_task_auto_idle_witness :
    run_background_task_timed "B" "c" "backup" (fun _ => .exited 1) 0 5
        ⟨"error", "B failed. Check logs.", "backup"⟩ =
      [(0, runningStatus "B" "backup"), (5, terminalStatus "B" "backup" (.exited 1)),
       (15, ⟨"idle", "B failed. Check logs.", "backup"⟩)] ∧
    run_background_task_timed "B" "c" "backup" (fun _ => .exited 1) 0 5
        ⟨"running", "S in progress...", "setup"⟩ =
      [(0, runningStatus "B" "backup"), (5, terminalStatus "B" "backup" (.exited 1))] := by
  constructor
  · have h := (run_background_task_auto_idle "B" "c" "backup" (fun _ => .exited 1) 0 5
      ⟨"error", "B failed. Check logs.", "backup"⟩).2.2 (by decide)
    simpa using h
  · exact (run_background_task_auto_idle "B" "c" "backup" (fun _ => .exited 1) 0 5
      ⟨"running", "S in progress...", "setup"⟩).2.1 rfl

/-- The running record persisted when a backup task is accepted. -/
def backupRunning : TaskStatus := ⟨"running", "Full System Backup in progress...", "backup"⟩

/-- C1: the admission gate of every task route reads the in-process global
`current_task_status`, which stays at its default while file writes
succeed.  Starting from the fresh process state, a first Submit is
accepted; after its `running` record is successfully persisted, the
persisted status reads `running`, yet a second Submit is still accepted —
the spec-mandated gate (`specSubmitGate`, reading the status file) would
reject it. -/
theorem task_admission_ignores_status_file :
    taskRouteAdmission ⟨.absent, defaultStatus⟩ = .accepted ∧
    (read_status (write_status ⟨.absent, defaultStatus⟩ backupRunning true).statusFile).status
      = "running" ∧
    taskRouteAdmission (write_status ⟨.absent, defaultStatus⟩ backupRunning true) = .accepted ∧
    specSubmitGate (write_status ⟨.absent, defaultStatus⟩ backupRunning true) = .rejected :=
  ⟨rfl, rfl, rfl, rfl⟩

/-! ## Claim theorems: one-time credentials -/

/-- A concrete published credential record. -/
def sampleCreds : InstallCreds := ⟨"admin", "abc123".toList, some "x.example".toList, 0⟩

/-- C2 counterexample: after publication, the first Claim returns the
record but leaves the file in place, and a second Claim returns the record
again rather than NotFound — so more than one Claim can succeed. -/
theorem second_claim_returns_record :
    (get_one_time_credentials (publish_credentials sampleCreds)).1 = .ok sampleCreds ∧
    (get_one_time_credentials (publish_credentials sampleCreds)).2 =
      publish_credentials sampleCreds ∧
    (get_one_time_credentials
        (get_one_time_credentials (publish_credentials sampleCreds)).2).1 = .ok sampleCreds ∧
    (get_one_time_credentials
        (get_one_time_credentials (publish_credentials sampleCreds)).2).1 ≠ .gone := by
  refine ⟨rfl, rfl, rfl, by simp [get_one_time_credentials, publish_credentials]⟩

/-- C2 amended: Claim returns the published record and does not delete the
file; the file is removed only by the explicit client-acknowledged cleanup
endpoint, after which Claim deterministically returns NotFound (410). -/
theorem one_time_credentials_claim_cleanup (r : InstallCreds) :
    get_one_time_credentials (publish_credentials r) = (.ok r, .stored r) ∧
    cleanup_credentials (.stored r) = .absent ∧
    (get_one_time_credentials (cleanup_credentials (.stored r))).1 = .gone :=
  ⟨rfl, rfl, rfl⟩

/-! ## Claim theorems: authentication -/

/-- C10: `check_factory_auth` accepts exactly the configured
`FACTORY_PASSWORD` value; when the factory file is missing or has no such
key it accepts exactly the literal `homebrain`; hence some password is
always accepted pre-setup. -/
theorem check_factory_auth_spec :
    (∀ factory v pw, get_factory_config factory "FACTORY_PASSWORD".toList = some v →
      (check_factory_auth factory pw = true ↔ pw = v)) ∧
    (∀ factory pw, get_factory_config factory "FACTORY_PASSWORD".toList = none →
      (check_factory_auth factory pw = true ↔ pw = "homebrain".toList)) ∧
    (∀ factory, ∃ pw, check_factory_auth factory pw = true) := by
  refine ⟨fun fa v pw h => by unfold check_factory_auth; rw [h]; simp,
          fun fa pw h => by unfold check_factory_auth; rw [h]; simp,
          fun fa => ⟨(get_factory_config fa "FACTORY_PASSWORD".toList).getD "homebrain".toList,
            by simp [check_factory_auth]⟩⟩

/-- Witness for C10: the default with a missing file, and a configured
single-quoted factory password. -/
theorem check_factory_auth_witness :
    check_factory_auth none "homebrain".toList = true ∧
    check_factory_auth (some "FACTORY_PASSWORD='abc'\n".toList) "abc".toList = true :=
  ⟨(check_factory_auth_spec.2.1 none "homebrain".toList rfl).mpr rfl,
   (check_factory_auth_spec.1 (some "FACTORY_PASSWORD='abc'\n".toList) "abc".toList
      "abc".toList (by decide)).mpr rfl⟩

/-- C9: once setup is complete, a live config with no `MANAGER_PASSWORD`
entry makes `check_auth` false for every username/password, so every
non-whitelisted request receives the 401 admin challenge — there is no
factory-password fallback post-setup. -/
theorem check_auth_denies_without_manager_password (env : Chars)
    (h : get_env_config env "MANAGER_PASSWORD".toList = none) :
    (∀ u p, check_auth env u p = false) ∧
    (∀ factory q, whitelisted q = false →
      auth_gate true factory env q = .challenge "HomeBrain Admin Login") := by
  have hca : ∀ u p, check_auth env u p = false := fun u p => by
    unfold check_auth
    rw [h]
  refine ⟨hca, fun fa q hw => ?_⟩
  cases hq : q.authorization with
  | none => simp [auth_gate, hw, hq]
  | some a => simp [auth_gate, hw, hq, hca]

/-- Witness for C9: empty live config, a dashboard request with admin
credentials supplied. -/
theorem check_auth_denies_witness :
    check_auth [] "admin".toList "pw".toList = false ∧
    auth_gate true none [] ⟨false, "/".toList, some ("admin".toList, "pw".toList)⟩ =
      .challenge "HomeBrain Admin Login" := by
  have h := check_auth_denies_without_manager_password [] (by decide)
  exact ⟨h.1 _ _, h.2 none _ (by decide)⟩

/-! ## Machinery for the config round-trip claims -/

/-- Characters that are special somewhere on the `update_env_var` write
path: the quote escaping, the sed replacement processing, or the
line-splitting. -/
def badValChar (c : Char) : Bool :=
  c = '\'' || c = '\\' || c = '&' || c = '|' || c = '\n'

/-- Values free of the write-path special characters (spaces, `$` and
backticks are allowed). -/
def valOK (v : Chars) : Bool := v.all fun c => !badValChar c

/-- Keys of the shape actually used in the source: non-empty, alphanumeric
or underscore. -/
def keyOK (k : Chars) : Bool := !(k = []) && k.all fun c => c.isAlphanum || c = '_'

/-- A config file is clean for key `k` when every line that parses to key
`k` literally starts with `k=` (so `grep`/`sed`, which match `^k=`, see
the same lines the parser attributes to `k`). -/
def keyClean (k content : Chars) : Bool :=
  (envLines content).all fun l =>
    match parseLine l with
    | some kv => kv.1 ≠ k || startsWithKey k l
    | none => true

/-- The canonical line `update_env_var` produces for a safe value. -/
def canonLine (k v : Chars) : Chars := k ++ '=' :: '\'' :: v ++ ['\'']

/-- The contribution of one line to the lookup for `k`. -/
def lineHit (k l : Chars) : Option Chars :=
  match parseLine l with
  | some kv => if kv.1 = k then some kv.2 else none
  | none => none

theorem lookupAux_cons_hit (k : Chars) (acc : Option Chars) (l : Chars) (ls : List Chars)
    (v : Chars) (h : lineHit k l = some v) :
    lookupAux k acc (l :: ls) = lookupAux k (some v) ls := by
  rcases hp : parseLine l with - | kv
  · simp [lineHit, hp] at h
  · simp only [lineHit, hp] at h
    by_cases hk : kv.1 = k
    · simp only [if_pos hk, Option.some_inj] at h
      simp only [lookupAux, hp, if_pos hk, h]
    · simp [if_neg hk] at h

theorem lookupAux_cons_miss (k : Chars) (acc : Option Chars) (l : Chars) (ls : List Chars)
    (h : lineHit k l = none) :
    lookupAux k acc (l :: ls) = lookupAux k acc ls := by
  rcases hp : parseLine l with - | kv
  · simp only [lookupAux, hp]
  · simp only [lineHit, hp] at h
    by_cases hk : kv.1 = k
    · simp [if_pos hk] at h
    · simp only [lookupAux, hp, if_neg hk]

theorem lookupAux_append (k : Chars) (acc : Option Chars) (xs ys : List Chars) :
    lookupAux k acc (xs ++ ys) = lookupAux k (lookupAux k acc xs) ys := by
  induction xs generalizing acc with
  | nil => rfl
  | cons l ls ih =>
    rcases hh : lineHit k l with - | v
    · rw [List.cons_append, lookupAux_cons_miss k acc l _ hh,
          lookupAux_cons_miss k acc l ls hh, ih]
    · rw [List.cons_append, lookupAux_cons_hit k acc l _ v hh,
          lookupAux_cons_hit k acc l ls v hh, ih]

theorem lookupAux_no_hit (k : Chars) (acc : Option Chars) (ls : List Chars)
    (h : ∀ l ∈ ls, lineHit k l = none) : lookupAux k acc ls = acc := by
  induction ls with
  | nil => rfl
  | cons l ls ih =>
    rw [lookupAux_cons_miss k acc l ls (h l (by simp))]
    exact ih fun x hx => h x (by simp [hx])

theorem lookupAux_hits_same (k v : Chars) (ls : List Chars)
    (hall : ∀ l ∈ ls, lineHit k l = none ∨ lineHit k l = some v) :
    ∀ acc, (acc = some v ∨ ∃ l ∈ ls, lineHit k l = some v) →
      lookupAux k acc ls = some v := by
  induction ls with
  | nil =>
    rintro acc (h | ⟨l, hl, -⟩)
    · exact h
    · exact absurd hl (by simp)
  | cons l ls ih =>
    intro acc hacc
    rcases hall l (by simp) with h0 | h0
    · rw [lookupAux_cons_miss k acc l ls h0]
      refine ih (fun x hx => hall x (by simp [hx])) acc ?_
      rcases hacc with h | ⟨x, hx, hhit⟩
      · exact Or.inl h
      · rcases List.mem_cons.mp hx with rfl | hx'
        · exact absurd hhit (by simp [h0])
        · exact Or.inr ⟨x, hx', hhit⟩
    · rw [lookupAux_cons_hit k acc l ls v h0]
      exact ih (fun x hx => hall x (by simp [hx])) (some v) (Or.inl rfl)

theorem lookupAux_congr (k : Chars) (g : Chars → Chars) (ls : List Chars)
    (h : ∀ l ∈ ls, lineHit k (g l) = lineHit k l) :
    ∀ acc, lookupAux k acc (ls.map g) = lookupAux k acc ls := by
  induction ls with
  | nil => intro acc; rfl
  | cons l ls ih =>
    intro acc
    rw [List.map_cons]
    rcases hh : lineHit k l with - | v
    · rw [lookupAux_cons_miss k acc (g l) _ (by rw [h l (by simp), hh]),
          lookupAux_cons_miss k acc l ls hh]
      exact ih (fun x hx => h x (by simp [hx])) acc
    · rw [lookupAux_cons_hit k acc (g l) _ v (by rw [h l (by simp), hh]),
          lookupAux_cons_hit k acc l ls v hh]
      exact ih (fun x hx => h x (by simp [hx])) (some v)

/-! Splitting and joining lines. -/

theorem splitOnChar_ne_nil (sep : Char) (s : Chars) : splitOnChar sep s ≠ [] := by
  cases s with
  | nil => simp [splitOnChar]
  | cons c cs =>
    unfold splitOnChar
    cases splitOnChar sep cs with
    | nil => simp
    | cons l ls => by_cases h : c = sep <;> simp [h]

theorem splitOnChar_cons (sep c : Char) (cs : Chars) :
    splitOnChar sep (c :: cs) =
      if c = sep then [] :: splitOnChar sep cs
      else (c :: (splitOnChar sep cs).headI) :: (splitOnChar sep cs).tail := by
  rcases hsp : splitOnChar sep cs with - | ⟨l, ls⟩
  · exact absurd hsp (splitOnChar_ne_nil _ _)
  · by_cases h : c = sep <;> simp [splitOnChar, hsp, h]

theorem joinLines_splitOnChar (s : Chars) : joinLines (splitOnChar '\n' s) = s := by
  induction s with
  | nil => rfl
  | cons c cs ih =>
    rw [splitOnChar_cons]
    rcases hsp : splitOnChar '\n' cs with - | ⟨l, ls⟩
    · exact absurd hsp (splitOnChar_ne_nil _ _)
    · rw [hsp] at ih
      by_cases h : c = '\n'
      · subst h
        rw [if_pos rfl]
        simpa [joinLines] using ih
      · rw [if_neg h]
        simp only [List.headI, List.tail_cons]
        cases ls with
        | nil => simpa [joinLines] using ih
        | cons l2 ls2 => simpa [joinLines] using ih

theorem not_mem_of_mem_splitOnChar (sep : Char) (s : Chars) :
    ∀ l ∈ splitOnChar sep s, sep ∉ l := by
  induction s with
  | nil =>
    intro l hl
    simp [splitOnChar] at hl
    simp [hl]
  | cons c cs ih =>
    intro l hl
    rw [splitOnChar_cons] at hl
    rcases hsp : splitOnChar sep cs with - | ⟨x, xs⟩
    · exact absurd hsp (splitOnChar_ne_nil _ _)
    · rw [hsp] at hl ih
      by_cases h : c = sep
      · rw [if_pos h] at hl
        rcases List.mem_cons.mp hl with rfl | hl'
        · simp
        · exact ih l hl'
      · rw [if_neg h] at hl
        simp only [List.headI, List.tail_cons] at hl
        rcases List.mem_cons.mp hl with rfl | hl'
        · intro hmem
          rcases List.mem_cons.mp hmem with rfl | hmem'
          · exact h rfl
          · exact ih x (by simp) hmem'
        · exact ih l (by simp [hl'])

theorem splitOnChar_of_not_mem (sep : Char) (s : Chars) (h : sep ∉ s) :
    splitOnChar sep s = [s] := by
  induction s with
  | nil => rfl
  | cons c cs ih =>
    rw [splitOnChar_cons, ih (fun hc => h (by simp [hc]))]
    have hc : c ≠ sep := fun hc => h (by simp [hc])
    simp [hc]

theorem splitOnChar_append_sep (sep : Char) (x : Chars) :
    splitOnChar sep (x ++ [sep]) = splitOnChar sep x ++ [[]] := by
  induction x with
  | nil => simp [splitOnChar]
  | cons c cs ih =>
    show splitOnChar sep (c :: (cs ++ [sep])) = _
    rw [splitOnChar_cons, splitOnChar_cons, ih]
    rcases hsp : splitOnChar sep cs with - | ⟨l, ls⟩
    · exact absurd hsp (splitOnChar_ne_nil _ _)
    · by_cases h : c = sep <;> simp [h]

theorem splitOnChar_sep_append (sep : Char) (x y : Chars) :
    splitOnChar sep ((x ++ [sep]) ++ y) = splitOnChar sep x ++ splitOnChar sep y := by
  induction x with
  | nil =>
    simp only [List.nil_append]
    show splitOnChar sep (sep :: y) = _
    rw [splitOnChar_cons, if_pos rfl]
    rfl
  | cons c cs ih =>
    show splitOnChar sep (c :: ((cs ++ [sep]) ++ y)) = _
    rw [splitOnChar_cons, ih, splitOnChar_cons]
    rcases hsp : splitOnChar sep cs with - | ⟨l, ls⟩
    · exact absurd hsp (splitOnChar_ne_nil _ _)
    · by_cases h : c = sep <;> simp [h]

theorem pyStripL_of_head (c : Char) (cs : Chars) (h : pySpace c = false) :
    pyStripL (c :: cs) = c :: cs := by
  simp [pyStripL, h]

theorem pyStripL_append (x y : Chars) :
    pyStripL (x ++ y) = if pyStripL x = [] then pyStripL y else pyStripL x ++ y := by
  induction x with
  | nil => simp [pyStripL]
  | cons c cs ih =>
    by_cases h : pySpace c = true
    · show pyStripL (c :: (cs ++ y)) = _
      simp [pyStripL, h, ih]
    · rw [Bool.not_eq_true] at h
      show pyStripL (c :: (cs ++ y)) = _
      simp [pyStripL, h]

theorem pyStripR_of_getLast (s : Chars) (c : Char) (hc : s.getLast? = some c)
    (h : pySpace c = false) : pyStripR s = s := by
  have hs : s ≠ [] := by rintro rfl; simp at hc
  have hdecomp : s.dropLast ++ [s.getLast hs] = s := List.dropLast_append_getLast hs
  have hgl : s.getLast hs = c := by
    have := List.getLast?_eq_getLast s hs
    rw [hc] at this
    exact (Option.some_inj.mp this).symm
  rw [← hdecomp, hgl]
  unfold pyStripR
  rw [List.reverse_append, List.reverse_singleton]
  simp only [List.singleton_append]
  rw [pyStripL_of_head c _ h]
  simp

theorem pyStripR_append (a b : Chars) :
    pyStripR (a ++ b) = if pyStripR b = [] then pyStripR a else a ++ pyStripR b := by
  unfold pyStripR
  rw [List.reverse_append, pyStripL_append]
  by_cases h : pyStripL b.reverse = []
  · simp [h]
  · have h2 : (pyStripL b.reverse).reverse ≠ [] := by simpa using h
    simp [h, h2]

theorem pyReplaceGo_single_id (a : Char) (r : Chars) :
    ∀ (n : Nat) (s : Chars), a ∉ s → pyReplaceGo [a] r n s = s := by
  intro n
  induction n with
  | zero => intro s _; rfl
  | succ n ih =>
    intro s hs
    cases s with
    | nil => rfl
    | cons c cs =>
      have hca : ¬([a].isPrefixOf (c :: cs) = true) := by
        simp only [List.isPrefixOf, Bool.and_eq_true, beq_iff_eq]
        rintro ⟨rfl, -⟩
        exact hs (by simp)
      unfold pyReplaceGo
      rw [if_neg (by simp [hca])]
      rw [ih cs (fun hmem => hs (by simp [hmem]))]

theorem pyReplaceGo_sqEsc_id (r : Chars) :
    ∀ (n : Nat) (s : Chars), '\\' ∉ s → pyReplaceGo sqEsc r n s = s := by
  intro n
  induction n with
  | zero => intro s _; rfl
  | succ n ih =>
    intro s hs
    cases s with
    | nil => rfl
    | cons c cs =>
      have hca : ¬(sqEsc.isPrefixOf (c :: cs) = true) := by
        cases cs with
        | nil => simp [sqEsc, List.isPrefixOf]
        | cons d ds =>
          simp only [sqEsc, List.isPrefixOf, Bool.and_eq_true, beq_iff_eq]
          rintro ⟨-, rfl, -⟩
          exact hs (by simp)
      unfold pyReplaceGo
      rw [if_neg (by simp [hca])]
      rw [ih cs (fun hmem => hs (by simp [hmem]))]

theorem sedTemplProc_id (matched : Chars) :
    ∀ t : Chars, (∀ c ∈ t, c ≠ '&' ∧ c ≠ '\\') → sedTemplProc matched t = t
  | [] => fun _ => rfl
  | [c] => fun h => by
      have hc := h c (by simp)
      simp [sedTemplProc, hc.1, hc.2]
  | c :: d :: rest => fun h => by
      have hc := h c (by simp)
      have ih := sedTemplProc_id matched (d :: rest) fun x hx => h x (by simp [List.mem_cons.mp hx])
      simp only [sedTemplProc, if_neg (by simpa using hc.1), if_neg (by simpa using hc.2)]
      rw [ih]

theorem keyChar_props (c : Char) (h : (c.isAlphanum || c = '_') = true) :
    c ≠ '=' ∧ pySpace c = false ∧ c ≠ '\n' ∧ c ≠ '&' ∧ c ≠ '\\' ∧ c ≠ '|' ∧ c ≠ '\'' := by
  have h' : c.isAlphanum = true ∨ c = '_' := by
    rcases (Bool.or_eq_true _ _).mp h with h1 | h1
    · exact Or.inl h1
    · exact Or.inr (by simpa using h1)
  rcases h' with h' | rfl
  · refine ⟨?_, ?_, ?_, ?_, ?_, ?_, ?_⟩
    · rintro rfl; exact absurd h' (by decide)
    · by_cases hs : pySpace c = true
      · have hsix : c = ' ' ∨ c = '\t' ∨ c = '\n' ∨ c = '\r' ∨ c = '\x0b' ∨ c = '\x0c' := by
          simpa [pySpace, or_assoc] using hs
        rcases hsix with rfl | rfl | rfl | rfl | rfl | rfl <;> exact absurd h' (by decide)
      · simpa using hs
    · rintro rfl; exact absurd h' (by decide)
    · rintro rfl; exact absurd h' (by decide)
    · rintro rfl; exact absurd h' (by decide)
    · rintro rfl; exact absurd h' (by decide)
    · rintro rfl; exact absurd h' (by decide)
  · exact ⟨by decide, by decide, by decide, by decide, by decide, by decide, by decide⟩

theorem keyOK_ne_nil {k : Chars} (hk : keyOK k = true) : k ≠ [] := by
  rcases (Bool.and_eq_true _ _).mp hk with ⟨h1, -⟩
  simpa using h1

theorem keyOK_chars {k : Chars} (hk : keyOK k = true) :
    ∀ c ∈ k, (c.isAlphanum || c = '_') = true := by
  rcases (Bool.and_eq_true _ _).mp hk with ⟨-, h2⟩
  exact fun c hc => List.all_eq_true.mp h2 c hc

theorem keyOK_no_eq {k : Chars} (hk : keyOK k = true) : '=' ∉ k := fun hm =>
  (keyChar_props '=' (keyOK_chars hk '=' hm)).1 rfl

theorem valOK_props {v : Chars} (hv : valOK v = true) :
    '\'' ∉ v ∧ '\\' ∉ v ∧ '&' ∉ v ∧ '|' ∉ v ∧ '\n' ∉ v := by
  have hall : ∀ c ∈ v, badValChar c = false := by
    intro c hc
    have := List.all_eq_true.mp hv c hc
    simpa using this
  refine ⟨fun hm => ?_, fun hm => ?_, fun hm => ?_, fun hm => ?_, fun hm => ?_⟩ <;>
    · have := hall _ hm
      simp [badValChar] at this

theorem splitFirstEq_no_eq (k rest : Chars) (hk : '=' ∉ k) :
    splitFirstEq (k ++ '=' :: rest) = (k, rest) := by
  induction k with
  | nil => simp [splitFirstEq]
  | cons c cs ih =>
    show splitFirstEq (c :: (cs ++ '=' :: rest)) = _
    have hc : c ≠ '=' := fun h => hk (by simp [h])
    simp [splitFirstEq, hc, ih fun h => hk (List.mem_cons_of_mem c h)]

theorem pyStrip_of_ends (s : Chars) (c1 c2 : Char) (h1 : s.head? = some c1)
    (h2 : s.getLast? = some c2) (hs1 : pySpace c1 = false) (hs2 : pySpace c2 = false) :
    pyStrip s = s := by
  unfold pyStrip
  rw [pyStripR_of_getLast s c2 h2 hs2]
  cases s with
  | nil => simp at h1
  | cons a as =>
    have : a = c1 := by simpa using h1
    subst this
    exact pyStripL_of_head a as hs1

theorem canonLine_head? {k : Chars} (v : Chars) (hk : k ≠ []) :
    (canonLine k v).head? = k.head? := by
  cases k with
  | nil => exact absurd rfl hk
  | cons c cs => simp [canonLine]

theorem canonLine_getLast? (k v : Chars) : (canonLine k v).getLast? = some '\'' := by
  have : canonLine k v = (k ++ '=' :: '\'' :: v) ++ ['\''] := by simp [canonLine]
  rw [this, List.getLast?_concat]

theorem pyStrip_canonLine {k v : Chars} (hk : keyOK k = true) :
    pyStrip (canonLine k v) = canonLine k v := by
  rcases hk' : k with - | ⟨c, cs⟩
  · exact absurd hk' (keyOK_ne_nil hk)
  · subst hk'
    refine pyStrip_of_ends _ c '\'' ?_ (canonLine_getLast? _ _) ?_ (by decide)
    · rw [canonLine_head? v (by simp)]
      rfl
    · exact (keyChar_props c (keyOK_chars hk c (by simp))).2.1

theorem quotedVal_eq {v : Chars} (hv : valOK v = true) :
    quotedVal v = '\'' :: v ++ ['\''] := by
  unfold quotedVal bashEscape pyReplace
  rw [pyReplaceGo_single_id '\'' sqEsc v.length v (valOK_props hv).1]

theorem sedVal_eq {v : Chars} (hv : valOK v = true) :
    sedVal v = '\'' :: v ++ ['\''] := by
  unfold sedVal pyReplace
  rw [quotedVal_eq hv]
  apply pyReplaceGo_single_id
  intro hm
  rcases List.mem_cons.mp hm with h | h
  · exact absurd h (by decide)
  · rcases List.mem_append.mp h with h' | h'
    · exact (valOK_props hv).2.2.2.1 h'
    · simp at h'

theorem unquoteVal_cons (c : Char) (cs : Chars) :
    unquoteVal (c :: cs) =
      if (c = '\'' ∨ c = '"') ∧ (c :: cs).getLast? = some c then
        (if c = '\'' then pyReplace sqEsc ['\''] cs.dropLast else cs.dropLast)
      else c :: cs := rfl

theorem parseLine_eq (line : Chars) :
    parseLine line =
      if '=' ∈ line then
        some ((splitFirstEq (pyStrip line)).1,
              unquoteVal (pyStrip (splitFirstEq (pyStrip line)).2))
      else none := rfl

theorem unquoteVal_quoted {v : Chars} (hv : valOK v = true) :
    unquoteVal ('\'' :: v ++ ['\'']) = v := by
  have hlast : ('\'' :: (v ++ ['\''])).getLast? = some '\'' := by
    rw [← List.cons_append, List.getLast?_concat]
  rw [List.cons_append, unquoteVal_cons, if_pos ⟨Or.inl rfl, hlast⟩, if_pos rfl]
  rw [List.dropLast_concat]
  unfold pyReplace
  exact pyReplaceGo_sqEsc_id ['\''] v.length v (valOK_props hv).2.1

theorem parseLine_canonLine {k v : Chars} (hk : keyOK k = true) (hv : valOK v = true) :
    parseLine (canonLine k v) = some (k, v) := by
  rw [parseLine_eq, if_pos (by simp [canonLine] : '=' ∈ canonLine k v)]
  rw [pyStrip_canonLine hk]
  rw [show canonLine k v = k ++ '=' :: ('\'' :: (v ++ ['\''])) by simp [canonLine]]
  rw [splitFirstEq_no_eq k _ (keyOK_no_eq hk)]
  have hlast2 : ('\'' :: (v ++ ['\''])).getLast? = some '\'' := by
    rw [← List.cons_append, List.getLast?_concat]
  have hps : pyStrip ('\'' :: (v ++ ['\''])) = '\'' :: (v ++ ['\'']) :=
    pyStrip_of_ends _ '\'' '\'' rfl hlast2 (by decide) (by decide)
  rw [hps]
  have := unquoteVal_quoted hv
  rw [List.cons_append] at this
  rw [this]

theorem startsWithKey_canonLine (k v : Chars) : startsWithKey k (canonLine k v) = true := by
  unfold startsWithKey canonLine
  rw [List.isPrefixOf_iff_prefix]
  exact ⟨'\'' :: v ++ ['\''], by simp⟩

theorem startsWithKey_decomp {k l : Chars} (hl : startsWithKey k l = true) :
    ∃ rest, l = k ++ '=' :: rest := by
  unfold startsWithKey at hl
  rw [List.isPrefixOf_iff_prefix] at hl
  obtain ⟨t, ht⟩ := hl
  exact ⟨t, by rw [← ht]; simp⟩

theorem parse_of_startsWithKey {k : Chars} (hk : keyOK k = true) (l : Chars)
    (hl : startsWithKey k l = true) : ∃ v', parseLine l = some (k, v') := by
  obtain ⟨rest, rfl⟩ := startsWithKey_decomp hl
  rw [parseLine_eq, if_pos (by simp : '=' ∈ k ++ '=' :: rest)]
  obtain ⟨c, cs, rfl⟩ : ∃ c cs, k = c :: cs := by
    rcases k with - | ⟨c, cs⟩
    · exact absurd rfl (keyOK_ne_nil hk)
    · exact ⟨c, cs, rfl⟩
  have hchead : pySpace c = false :=
    (keyChar_props c (keyOK_chars hk c (by simp))).2.1
  have hkeyR : pyStripR ((c :: cs) ++ ['=']) = (c :: cs) ++ ['='] :=
    pyStripR_of_getLast _ '=' (List.getLast?_concat _) (by decide)
  have hstrip : pyStrip ((c :: cs) ++ '=' :: rest) = (c :: cs) ++ '=' :: pyStripR rest := by
    unfold pyStrip
    rw [show (c :: cs) ++ '=' :: rest = ((c :: cs) ++ ['=']) ++ rest by simp]
    rw [pyStripR_append, hkeyR]
    by_cases hrest : pyStripR rest = []
    · rw [if_pos hrest, hrest]
      rw [show (c :: cs) ++ ['='] = c :: (cs ++ ['=']) by simp, pyStripL_of_head c _ hchead]
    · rw [if_neg hrest]
      rw [show ((c :: cs) ++ ['=']) ++ pyStripR rest = c :: (cs ++ '=' :: pyStripR rest) by simp,
          pyStripL_of_head c _ hchead]
      simp
  rw [hstrip, splitFirstEq_no_eq _ _ (keyOK_no_eq hk)]
  exact ⟨_, rfl⟩

theorem lineHit_nil (k : Chars) : lineHit k [] = none := by
  simp [lineHit, parseLine]

theorem startsWithKey_nil_line (k : Chars) : startsWithKey k [] = false := by
  cases k <;> simp [startsWithKey, List.isPrefixOf]

theorem lineHit_canonLine {k v : Chars} (hk : keyOK k = true) (hv : valOK v = true) :
    lineHit k (canonLine k v) = some v := by
  simp [lineHit, parseLine_canonLine hk hv]

theorem lineHit_canonLine_other {k k' v : Chars} (hk : keyOK k = true) (hv : valOK v = true)
    (hne : k ≠ k') : lineHit k' (canonLine k v) = none := by
  simp [lineHit, parseLine_canonLine hk hv, hne]

theorem lineHit_of_startsWith_other {k k' : Chars} (hk : keyOK k = true) (hne : k ≠ k')
    (l : Chars) (hl : startsWithKey k l = true) : lineHit k' l = none := by
  obtain ⟨v', hp⟩ := parse_of_startsWithKey hk l hl
  simp [lineHit, hp, hne]

theorem keyClean_hit_none {k content : Chars} (hc : keyClean k content = true) :
    ∀ l ∈ envLines content, startsWithKey k l = false → lineHit k l = none := by
  intro l hl hsw
  have h := List.all_eq_true.mp hc l hl
  rcases hp : parseLine l with - | kv
  · simp [lineHit, hp]
  · rw [hp] at h
    simp only [hsw, Bool.or_false, decide_eq_true_eq] at h
    simp only [lineHit, hp]
    rw [if_neg h]

theorem mem_canonLine {c : Char} {k v : Chars} (hm : c ∈ canonLine k v) :
    c ∈ k ∨ c = '=' ∨ c = '\'' ∨ c ∈ v := by
  have h : c ∈ k ∨ c = '=' ∨ c = '\'' ∨ c ∈ v ∨ c = '\'' := by
    simpa [canonLine, or_assoc] using hm
  rcases h with h | h | h | h | h
  · exact Or.inl h
  · exact Or.inr (Or.inl h)
  · exact Or.inr (Or.inr (Or.inl h))
  · exact Or.inr (Or.inr (Or.inr h))
  · exact Or.inr (Or.inr (Or.inl h))

theorem canonLine_not_nl {k v : Chars} (hk : keyOK k = true) (hv : valOK v = true) :
    '\n' ∉ canonLine k v := by
  intro hm
  rcases mem_canonLine hm with hm | h | h | hm
  · exact (keyChar_props _ (keyOK_chars hk _ hm)).2.2.1 rfl
  · exact absurd h (by decide)
  · exact absurd h (by decide)
  · exact (valOK_props hv).2.2.2.2 hm

theorem canonLine_no_amp_bs {k v : Chars} (hk : keyOK k = true) (hv : valOK v = true) :
    ∀ c ∈ canonLine k v, c ≠ '&' ∧ c ≠ '\\' := by
  intro c hc
  rcases mem_canonLine hc with hc | rfl | rfl | hc
  · have h := keyChar_props _ (keyOK_chars hk _ hc)
    exact ⟨h.2.2.2.1, h.2.2.2.2.1⟩
  · exact ⟨by decide, by decide⟩
  · exact ⟨by decide, by decide⟩
  · obtain ⟨-, h2, h3, -⟩ := valOK_props hv
    exact ⟨fun he => h3 (he ▸ hc), fun he => h2 (he ▸ hc)⟩

theorem sedSubLine_canon {k v : Chars} (hk : keyOK k = true) (hv : valOK v = true) (l : Chars) :
    sedSubLine k (canonLine k v) l =
      if startsWithKey k l = true then canonLine k v else l := by
  unfold sedSubLine
  by_cases h : startsWithKey k l = true
  · rw [if_pos h, if_pos h, sedTemplProc_id l _ (canonLine_no_amp_bs hk hv)]
  · rw [if_neg (by simpa using h), if_neg h]

theorem sed_templ_eq {k v : Chars} (hv : valOK v = true) :
    k ++ '=' :: sedVal v = canonLine k v := by
  rw [sedVal_eq hv]
  simp [canonLine]

theorem splitOnChar_joinLines (ls : List Chars) (hne : ls ≠ [])
    (h : ∀ l ∈ ls, '\n' ∉ l) : splitOnChar '\n' (joinLines ls) = ls := by
  induction ls with
  | nil => exact absurd rfl hne
  | cons l ls ih =>
    cases ls with
    | nil =>
      show splitOnChar '\n' l = [l]
      exact splitOnChar_of_not_mem '\n' l (h l (by simp))
    | cons l2 ls2 =>
      show splitOnChar '\n' (l ++ '\n' :: joinLines (l2 :: ls2)) = _
      rw [show l ++ '\n' :: joinLines (l2 :: ls2) = (l ++ ['\n']) ++ joinLines (l2 :: ls2)
        by simp]
      rw [splitOnChar_sep_append, splitOnChar_of_not_mem '\n' l (h l (by simp)),
          ih (by simp) fun x hx => h x (by simp [hx])]
      rfl

theorem envLines_update_sed {content k v : Chars} (hk : keyOK k = true) (hv : valOK v = true)
    (hgrep : grepHasKey content k = true) :
    envLines (update_env_var content k v) =
      (envLines content).map (sedSubLine k (canonLine k v)) := by
  unfold update_env_var
  rw [if_pos hgrep]
  unfold sedSubFile
  rw [sed_templ_eq hv]
  apply splitOnChar_joinLines
  · simpa using splitOnChar_ne_nil '\n' content
  · intro l' hl'
    obtain ⟨l, hl, rfl⟩ := List.mem_map.mp hl'
    rw [sedSubLine_canon hk hv l]
    by_cases h : startsWithKey k l = true
    · rw [if_pos h]
      exact canonLine_not_nl hk hv
    · rw [if_neg h]
      exact not_mem_of_mem_splitOnChar '\n' content l hl

theorem update_append_eq {content k v : Chars} (hv : valOK v = true)
    (hgrep : grepHasKey content k = false) :
    update_env_var content k v = ensureTrailingNl content ++ (canonLine k v ++ ['\n']) := by
  unfold update_env_var
  rw [if_neg (by simp [hgrep])]
  rw [quotedVal_eq hv]
  simp [canonLine]

theorem grep_false_lines {content k : Chars} (h : grepHasKey content k = false) :
    ∀ l ∈ envLines content, startsWithKey k l = false := by
  intro l hl
  by_contra hne
  have hsw : startsWithKey k l = true := by simpa using hne
  have : grepHasKey content k = true := List.any_eq_true.mpr ⟨l, hl, hsw⟩
  simp [this] at h

theorem ensureTrailingNl_nil : ensureTrailingNl [] = [] := by
  simp [ensureTrailingNl]

theorem append_case_lines {content k v : Chars} (hk : keyOK k = true) (hv : valOK v = true)
    (hgrep : grepHasKey content k = false) :
    ∃ X, envLines (update_env_var content k v) = X ++ [canonLine k v, []] ∧
      (∀ l ∈ X, startsWithKey k l = false) ∧
      (∀ (acc : Option Chars) (k' : Chars),
        lookupAux k' acc X = lookupAux k' acc (envLines content)) ∧
      (∀ l ∈ X, l ∈ envLines content) := by
  rw [update_append_eq hv hgrep]
  have hsingle : envLines (canonLine k v ++ ['\n']) = [canonLine k v, []] := by
    unfold envLines
    rw [splitOnChar_append_sep, splitOnChar_of_not_mem '\n' _ (canonLine_not_nl hk hv)]
    rfl
  by_cases h0 : content = []
  · subst h0
    refine ⟨[], ?_, by simp, ?_, by simp⟩
    · rw [ensureTrailingNl_nil, List.nil_append, hsingle]
      rfl
    · intro acc k'
      show acc = lookupAux k' acc [[]]
      rw [lookupAux_cons_miss _ _ _ _ (lineHit_nil k')]
      rfl
  · by_cases h1 : content.getLast? = some '\n'
    · have hens : ensureTrailingNl content = content := by
        simp [ensureTrailingNl, h1]
      have hgl : content.getLast h0 = '\n' := by
        have := List.getLast?_eq_getLast content h0
        rw [h1] at this
        exact (Option.some_inj.mp this).symm
      have hdecomp : content = content.dropLast ++ ['\n'] := by
        conv_lhs => rw [← List.dropLast_append_getLast h0, hgl]
      refine ⟨splitOnChar '\n' content.dropLast, ?_, ?_, ?_, ?_⟩
      · rw [hens]
        conv_lhs => rw [hdecomp]
        rw [show (content.dropLast ++ ['\n']) ++ (canonLine k v ++ ['\n']) =
              (content.dropLast ++ ['\n']) ++ (canonLine k v ++ ['\n']) from rfl]
        unfold envLines
        rw [splitOnChar_sep_append]
        rw [show splitOnChar '\n' (canonLine k v ++ ['\n']) = [canonLine k v, []] from hsingle]
      · intro l hl
        refine grep_false_lines hgrep l ?_
        show l ∈ splitOnChar '\n' content
        rw [show content = content.dropLast ++ ['\n'] from hdecomp, splitOnChar_append_sep]
        exact List.mem_append_left _ hl
      · intro acc k'
        show _ = lookupAux k' acc (splitOnChar '\n' content)
        conv_rhs => rw [hdecomp]
        rw [splitOnChar_append_sep, lookupAux_append,
            lookupAux_cons_miss _ _ _ _ (lineHit_nil k')]
        rfl
      · intro l hl
        show l ∈ splitOnChar '\n' content
        rw [show content = content.dropLast ++ ['\n'] from hdecomp, splitOnChar_append_sep]
        exact List.mem_append_left _ hl
    · have hens : ensureTrailingNl content = content ++ ['\n'] := by
        simp [ensureTrailingNl, h0, h1]
      refine ⟨envLines content, ?_, grep_false_lines hgrep, fun acc k' => rfl, fun l hl => hl⟩
      rw [hens]
      unfold envLines
      rw [splitOnChar_sep_append]
      rw [show splitOnChar '\n' (canonLine k v ++ ['\n']) = [canonLine k v, []] from hsingle]

theorem update_env_var_get {content k v : Chars} (hk : keyOK k = true) (hv : valOK v = true)
    (hc : keyClean k content = true) :
    get_env_config (update_env_var content k v) k = some v := by
  by_cases hgrep : grepHasKey content k = true
  · unfold get_env_config
    rw [envLines_update_sed hk hv hgrep]
    apply lookupAux_hits_same
    · intro l' hl'
      obtain ⟨l, hl, rfl⟩ := List.mem_map.mp hl'
      rw [sedSubLine_canon hk hv l]
      by_cases h : startsWithKey k l = true
      · rw [if_pos h]
        exact Or.inr (lineHit_canonLine hk hv)
      · rw [if_neg h]
        exact Or.inl (keyClean_hit_none hc l hl (by simpa using h))
    · right
      obtain ⟨l, hl, hsw⟩ := List.any_eq_true.mp hgrep
      refine ⟨sedSubLine k (canonLine k v) l, List.mem_map_of_mem _ hl, ?_⟩
      rw [sedSubLine_canon hk hv l, if_pos hsw]
      exact lineHit_canonLine hk hv
  · have hgrep' : grepHasKey content k = false := by simpa using hgrep
    obtain ⟨X, hX, -, -, -⟩ := append_case_lines hk hv hgrep'
    unfold get_env_config
    rw [hX, lookupAux_append,
        lookupAux_cons_hit _ _ _ _ v (lineHit_canonLine hk hv),
        lookupAux_cons_miss _ _ _ _ (lineHit_nil k)]
    rfl

theorem update_env_var_idem {content k v : Chars} (hk : keyOK k = true) (hv : valOK v = true) :
    update_env_var (update_env_var content k v) k v = update_env_var content k v := by
  by_cases hgrep : grepHasKey content k = true
  · have hlines := envLines_update_sed hk hv hgrep
    set f1 := update_env_var content k v with hf1
    have hgrep1 : grepHasKey f1 k = true := by
      unfold grepHasKey
      rw [hlines]
      apply List.any_eq_true.mpr
      obtain ⟨l, hl, hsw⟩ := List.any_eq_true.mp hgrep
      refine ⟨sedSubLine k (canonLine k v) l, List.mem_map_of_mem _ hl, ?_⟩
      rw [sedSubLine_canon hk hv l, if_pos hsw]
      exact startsWithKey_canonLine k v
    unfold update_env_var
    rw [if_pos hgrep1]
    unfold sedSubFile
    rw [sed_templ_eq hv, hlines, List.map_map]
    have hgg : (envLines content).map (sedSubLine k (canonLine k v) ∘ sedSubLine k (canonLine k v)) =
        (envLines content).map (sedSubLine k (canonLine k v)) := by
      apply List.map_congr_left
      intro l hl
      show sedSubLine k (canonLine k v) (sedSubLine k (canonLine k v) l) = _
      rw [sedSubLine_canon hk hv l]
      by_cases h : startsWithKey k l = true
      · rw [if_pos h, sedSubLine_canon hk hv _, if_pos (startsWithKey_canonLine k v)]
      · rw [if_neg h, sedSubLine_canon hk hv l, if_neg h]
    rw [hgg, hf1]
    unfold update_env_var
    rw [if_pos hgrep]
    unfold sedSubFile
    rw [sed_templ_eq hv]
  · have hgrep' : grepHasKey content k = false := by simpa using hgrep
    obtain ⟨X, hX, hXsw, -, -⟩ := append_case_lines hk hv hgrep'
    set f1 := update_env_var content k v with hf1
    have hgrep1 : grepHasKey f1 k = true := by
      unfold grepHasKey
      rw [hX]
      exact List.any_eq_true.mpr ⟨canonLine k v, by simp, startsWithKey_canonLine k v⟩
    unfold update_env_var
    rw [if_pos hgrep1]
    unfold sedSubFile
    rw [sed_templ_eq hv, hX]
    have hmap : (X ++ [canonLine k v, []]).map (sedSubLine k (canonLine k v)) =
        X ++ [canonLine k v, []] := by
      rw [List.map_append]
      congr 1
      · conv_rhs => rw [← List.map_id X]
        apply List.map_congr_left
        intro l hl
        rw [sedSubLine_canon hk hv l, if_neg (by simp [hXsw l hl])]
        rfl
      · simp only [List.map_cons, List.map_nil]
        rw [sedSubLine_canon hk hv _, if_pos (startsWithKey_canonLine k v),
            sedSubLine_canon hk hv _, if_neg (by simp [startsWithKey_nil_line k])]
    rw [hmap, ← hX]
    exact joinLines_splitOnChar f1

theorem update_env_var_preserves_get {content k k' v : Chars} (hk : keyOK k = true)
    (hne : k ≠ k') (hv : valOK v = true) :
    get_env_config (update_env_var content k v) k' = get_env_config content k' := by
  by_cases hgrep : grepHasKey content k = true
  · unfold get_env_config
    rw [envLines_update_sed hk hv hgrep]
    apply lookupAux_congr
    intro l hl
    rw [sedSubLine_canon hk hv l]
    by_cases h : startsWithKey k l = true
    · rw [if_pos h, lineHit_canonLine_other hk hv hne, lineHit_of_startsWith_other hk hne l h]
    · rw [if_neg h]
  · have hgrep' : grepHasKey content k = false := by simpa using hgrep
    obtain ⟨X, hX, -, hlook, -⟩ := append_case_lines hk hv hgrep'
    unfold get_env_config
    rw [hX, lookupAux_append,
        lookupAux_cons_miss _ _ _ _ (lineHit_canonLine_other hk hv hne),
        lookupAux_cons_miss _ _ _ _ (lineHit_nil k')]
    exact hlook none k'

theorem keyClean_line {k' l : Chars} (h : ∀ kv, parseLine l = some kv → kv.1 ≠ k' ∨ startsWithKey k' l = true) :
    (match parseLine l with
     | some kv => (kv.1 ≠ k' : Bool) || startsWithKey k' l
     | none => true) = true := by
  rcases hp : parseLine l with - | kv
  · rfl
  · rcases h kv hp with h1 | h1 <;> simp [h1]

theorem keyClean_line_inv {k' l : Chars}
    (h : (match parseLine l with
          | some kv => (kv.1 ≠ k' : Bool) || startsWithKey k' l
          | none => true) = true) :
    ∀ kv, parseLine l = some kv → kv.1 ≠ k' ∨ startsWithKey k' l = true := by
  intro kv hp
  rw [hp] at h
  simpa using h

theorem update_env_var_preserves_keyClean {content k k' v : Chars} (hk : keyOK k = true)
    (hne : k ≠ k') (hv : valOK v = true) (hc : keyClean k' content = true) :
    keyClean k' (update_env_var content k v) = true := by
  apply List.all_eq_true.mpr
  intro l' hl'
  by_cases hgrep : grepHasKey content k = true
  · rw [envLines_update_sed hk hv hgrep] at hl'
    obtain ⟨l, hl, rfl⟩ := List.mem_map.mp hl'
    rw [sedSubLine_canon hk hv l]
    by_cases h : startsWithKey k l = true
    · rw [if_pos h]
      apply keyClean_line
      intro kv hp
      rw [parseLine_canonLine hk hv] at hp
      obtain rfl := Option.some_inj.mp hp
      exact Or.inl hne
    · rw [if_neg h]
      exact List.all_eq_true.mp hc l hl
  · have hgrep' : grepHasKey content k = false := by simpa using hgrep
    obtain ⟨X, hX, -, -, hmem⟩ := append_case_lines hk hv hgrep'
    rw [hX] at hl'
    rcases List.mem_append.mp hl' with hxl | hil
    · exact List.all_eq_true.mp hc l' (hmem l' hxl)
    · rcases List.mem_cons.mp hil with rfl | hil2
      · apply keyClean_line
        intro kv hp
        rw [parseLine_canonLine hk hv] at hp
        obtain rfl := Option.some_inj.mp hp
        exact Or.inl hne
      · rcases List.mem_cons.mp hil2 with rfl | h3
        · rfl
        · simp at h3

theorem foldl_update_preserves (v : Chars) (k0 : Chars) :
    ∀ (keys : List Chars) (env : Chars), valOK v = true →
      (∀ k ∈ keys, keyOK k = true ∧ k ≠ k0) →
      get_env_config (keys.foldl (fun f k' => update_env_var f k' v) env) k0 =
        get_env_config env k0 := by
  intro keys
  induction keys with
  | nil => intro env _ _; rfl
  | cons k1 ks ih =>
    intro env hv hall
    rw [List.foldl_cons]
    rw [ih (update_env_var env k1 v) hv fun k hk => hall k (by simp [hk])]
    exact update_env_var_preserves_get (hall k1 (by simp)).1 (hall k1 (by simp)).2 hv

theorem foldl_update_get (v : Chars) :
    ∀ (keys : List Chars) (env : Chars), valOK v = true →
      keys.Pairwise (· ≠ ·) →
      (∀ k ∈ keys, keyOK k = true) → (∀ k ∈ keys, keyClean k env = true) →
      ∀ k ∈ keys,
        get_env_config (keys.foldl (fun f k' => update_env_var f k' v) env) k = some v := by
  intro keys
  induction keys with
  | nil => intro env _ _ _ _ k hk; exact absurd hk (by simp)
  | cons k0 ks ih =>
    intro env hv hpw hok hcl k hk
    rw [List.foldl_cons]
    have hpw0 : ∀ x ∈ ks, k0 ≠ x := List.pairwise_cons.mp hpw |>.1
    rcases List.mem_cons.mp hk with rfl | hks
    · rw [foldl_update_preserves v k ks (update_env_var env k v) hv
        fun x hx => ⟨hok x (by simp [hx]), (hpw0 x hx).symm⟩]
      exact update_env_var_get (hok k (by simp)) hv (hcl k (by simp))
    · refine ih (update_env_var env k0 v) hv (List.pairwise_cons.mp hpw).2
        (fun x hx => hok x (by simp [hx])) ?_ k hks
      intro x hx
      exact update_env_var_preserves_keyClean (hok k0 (by simp)) (hpw0 x hx) hv
        (hcl x (by simp [hx]))

theorem genMasterPassword_length (oracle : Nat → Fin 62) :
    (genMasterPassword oracle).length = 16 := by
  simp [genMasterPassword]

theorem genMasterPassword_mem (oracle : Nat → Fin 62) :
    ∀ c ∈ genMasterPassword oracle, c ∈ passwordAlphabet := by
  intro c hc
  simp only [genMasterPassword, List.mem_map] at hc
  obtain ⟨i, -, rfl⟩ := hc
  exact List.get_mem _ _ _

theorem genMasterPassword_valOK (oracle : Nat → Fin 62) :
    valOK (genMasterPassword oracle) = true := by
  apply List.all_eq_true.mpr
  intro c hc
  have halpha : ∀ c ∈ passwordAlphabet, (!badValChar c) = true := by decide
  exact halpha c (genMasterPassword_mem oracle c hc)

theorem start_setup_master_gen {env : Chars} (oracle : Nat → Fin 62)
    (h : masterFound env = false) :
    start_setup_master env oracle = genMasterPassword oracle := by
  unfold masterFound at h
  unfold start_setup_master
  rcases hl : get_env_config env ("MASTER_PASSWORD".toList) with - | p
  · simp [hl]
  · rw [hl] at h
    have hp : p = [] := by simpa using h
    simp [hl, hp]

/-- C3 counterexample: with `K` already present, `Set("K", "a'b")` goes
through the sed rewrite, which strips the escaping backslashes, so the
subsequent `Get` returns `a'''b`; and starting from an empty file, a second
identical `Set` changes the file content. -/
theorem update_env_var_quote_mangled :
    get_env_config (update_env_var ("K='x'\n".toList) ("K".toList) ("a'b".toList)) ("K".toList) =
      some ("a'''b".toList) ∧
    some ("a'''b".toList) ≠ some ("a'b".toList) ∧
    update_env_var (update_env_var [] ("K".toList) ("a'b".toList)) ("K".toList) ("a'b".toList) ≠
      update_env_var [] ("K".toList) ("a'b".toList) := by
  refine ⟨by decide, by decide, by decide⟩

/-- C3 amended: for a non-empty alphanumeric/underscore key, on a file
whose lines for that key literally start with `key=`, and for a value
containing `$`, a backtick, or a space but no single quote, backslash,
ampersand, pipe, or newline, `Set` followed by `Load`/`Get` returns exactly
the value, and a second identical `Set` leaves the file byte-for-byte
unchanged. -/
theorem update_env_var_roundtrip (content k v : Chars)
    (hk : keyOK k = true) (hv : valOK v = true) (hc : keyClean k content = true) :
    get_env_config (update_env_var content k v) k = some v ∧
    update_env_var (update_env_var content k v) k v = update_env_var content k v :=
  ⟨update_env_var_get hk hv hc, update_env_var_idem hk hv⟩

/-- Witness for C3 (amended) at a concrete file, key and value containing
a dollar sign, a backtick and spaces. -/
theorem update_env_var_roundtrip_witness :
    get_env_config (update_env_var ("A='1'\n".toList) ("K".toList) ("a $`x b".toList))
        ("K".toList) = some ("a $`x b".toList) ∧
    update_env_var (update_env_var ("A='1'\n".toList) ("K".toList) ("a $`x b".toList))
        ("K".toList) ("a $`x b".toList) =
      update_env_var ("A='1'\n".toList) ("K".toList) ("a $`x b".toList) :=
  update_env_var_roundtrip _ _ _ (by decide) (by decide) (by decide)

/-- C8: when no master password is stored, `start_setup` generates a
16-character password over letters and digits and assigns that single value
to all six service keys, which therefore all compare equal afterwards. -/
theorem start_setup_password_bootstrap (env : Chars) (oracle : Nat → Fin 62)
    (hno : masterFound env = false)
    (hclean : ∀ k ∈ servicePasswordKeys, keyClean k env = true) :
    (start_setup_master env oracle).length = 16 ∧
    (∀ c ∈ start_setup_master env oracle, c ∈ passwordAlphabet) ∧
    (∀ k ∈ servicePasswordKeys,
      get_env_config (start_setup_fanout env (start_setup_master env oracle)) k =
        some (start_setup_master env oracle)) := by
  rw [start_setup_master_gen oracle hno]
  refine ⟨genMasterPassword_length oracle, genMasterPassword_mem oracle, ?_⟩
  intro k hk
  exact foldl_update_get (genMasterPassword oracle) servicePasswordKeys env
    (genMasterPassword_valOK oracle) (by decide) (by decide) hclean k hk

/-- A concrete oracle for the C8 witness. -/
def zeroOracle : Nat → Fin 62 := fun _ => ⟨0, by omega⟩

/-- Witness for C8 on an empty live config. -/
theorem start_setup_password_bootstrap_witness :
    (start_setup_master [] zeroOracle).length = 16 ∧
    get_env_config (start_setup_fanout [] (start_setup_master [] zeroOracle))
        ("MANAGER_PASSWORD".toList) = some (start_setup_master [] zeroOracle) := by
  have h := start_setup_password_bootstrap [] zeroOracle (by decide) (by decide)
  exact ⟨h.1, h.2.2 _ (by decide)⟩
